import Mathlib

/-!
Shallow embedding of `src/packages/lexical-markdown/src/MarkdownConvertor.ts`.

The source file contains two variants of the convertor.  The second
(current) variant reconciles the inline buffer with the common-prefix
algorithm `flushInline`; the first (historical) variant uses the
deferral algorithm `getInlineText` together with `flushInlineText`.
Both are embedded below: the state type and all primitives shared by
the two variants are identical in the source, the two reconcilers and
the two `LineBreakNode` conversions differ and are both modelled.

JS strings become Lean `String`, JS arrays become `List`, the
`false | LexicalNode` field `_closed` becomes `Option LNode`, the
optional boolean field `htmlInline?` becomes `Option Bool`
(`none` = the property is absent).
-/

set_option maxRecDepth 4000

namespace MDC

/-- InlineFormat from the source: `{type, openTag, closeTag, htmlInline?}`. -/
structure InlineFormat where
  type : String
  openTag : String
  closeTag : String
  htmlInline : Option Bool
deriving DecidableEq, Repr

/-- InlineText from the source: `{text, formats}`. -/
structure InlineText where
  text : String
  formats : List InlineFormat
deriving DecidableEq, Repr

/-- Format flags a lexical TextNode can carry (queried via `node.hasFormat`). -/
structure TextFormats where
  bold : Bool
  strikethrough : Bool
  italic : Bool
  code : Bool
  highlight : Bool
  underline : Bool
  subscript : Bool
  superscript : Bool
deriving DecidableEq, Repr

/-- The node kinds the embedded conversion maps handle.  The heading node
carries its tag string (for example "h2", read via `getTag()`); paragraph and
heading carry ordered children, mirroring the lexical element nodes. -/
inductive LNode where
  | textNode (content : String) (fmts : TextFormats)
  | lineBreakNode
  | tabNode
  | paragraphNode (children : List LNode)
  | headingNode (tag : String) (children : List LNode)
deriving Repr

/-- MarkdownConvertorState fields (the conversion collection is handled
separately by `selectConversion`, see below). -/
structure State where
  _delim : String
  _result : String
  _closed : Option LNode
  _stopNewline : Bool
  _inlineBuffer : List InlineText

/-- The state built by the `MarkdownConvertorState` constructor. -/
def initState : State :=
  { _delim := "", _result := "", _closed := none, _stopNewline := false,
    _inlineBuffer := [] }

/-- Source `addOutput`: `this._result += output`. -/
def addOutput (s : State) (output : String) : State :=
  { s with _result := s._result ++ output }

/-- Source `isInBlank`: the regex `/(^|\n)$/` on `_result`, i.e. the result
is empty or its last character is a newline. -/
def isInBlank (s : State) : Bool :=
  match s._result.data.getLast? with
  | none => true
  | some c => c = '\n'

/-- Source `ensureNewLine`. -/
def ensureNewLine (s : State) : State :=
  if isInBlank s then s else addOutput s "\n"

/-- Trailing-whitespace trim used by `flushClose` (`/\s+$/` removal). -/
def trimEnd (x : String) : String :=
  String.mk (x.data.reverse.dropWhile (fun c => c.isWhitespace)).reverse

/-- The `for (let i = 1; i < size; i += 1) addOutput(delimMin + "\n")` loop of
`flushClose`, with `n` the number of remaining iterations. -/
def appendDelimLines (s : State) (delimMin : String) : Nat → State
  | 0 => s
  | n + 1 => appendDelimLines (addOutput s (delimMin ++ "\n")) delimMin n

/-- Source `flushClose(size)` (default size is 2 at call sites). -/
def flushClose (s : State) (size : Nat) : State :=
  if s._stopNewline || s._closed.isNone then s
  else
    let s1 := if isInBlank s then s else addOutput s "\n"
    let s2 :=
      if 1 < size then appendDelimLines s1 (trimEnd s1._delim) (size - 1)
      else s1
    { s2 with _closed := none }

/-- Source `write(content)`; the source default argument `content = ''` is
passed explicitly at the Lean call sites. -/
def write (s : State) (content : String) : State :=
  let s1 := flushClose s 2
  let s2 := if s1._delim ≠ "" && isInBlank s1 then addOutput s1 s1._delim else s1
  if content ≠ "" then addOutput s2 content else s2

/-- Loop body of source `text`: per line `write()` then the line, plus a
newline between lines. -/
def textLines : State → List String → State
  | s, [] => s
  | s, [l] => addOutput (write s "") l
  | s, l :: l2 :: ls => textLines (addOutput (addOutput (write s "") l) "\n") (l2 :: ls)

/-- Source `text`: split on newline and write per line. -/
def textOp (s : State) (t : String) : State :=
  textLines s (t.splitOn "\n")

/-- Source `writeInline`: push one run onto the inline buffer. -/
def writeInline (s : State) (it : InlineText) : State :=
  { s with _inlineBuffer := s._inlineBuffer ++ [it] }

/-- Source `closeBlock`. -/
def closeBlock (s : State) (node : LNode) : State :=
  { s with _closed := some node }

/-- Source `close`. -/
def closeOp (s : State) : State :=
  { s with _closed := none }

/-- Concatenation of a list of strings (the source's `.join('')`). -/
def strConcat : List String → String
  | [] => ""
  | x :: l => x ++ strConcat l

/-- Helper of the current `flushInline`: `formats.map((f) => f.openTag).join('')`. -/
def openTags (formats : List InlineFormat) : String :=
  strConcat (formats.map (fun f => f.openTag))

/-- Helper of the current `flushInline`:
`formats.slice().reverse().map((f) => f.closeTag).join('')`. -/
def closeTags (formats : List InlineFormat) : String :=
  strConcat (formats.reverse.map (fun f => f.closeTag))

/-- The `while` loop of the current `flushInline` computing `common`: the
longest leading run of positions at which the two format lists agree on
`type` and `htmlInline` (the source compares only these two fields here). -/
def commonPrefixLen : List InlineFormat → List InlineFormat → Nat
  | f :: fs, g :: gs =>
      if f.type = g.type ∧ f.htmlInline = g.htmlInline
      then commonPrefixLen fs gs + 1
      else 0
  | _, _ => 0

/-- The `for` loop of the current `flushInline`, with `prevFormats` the loop
variable; the `[]` case is the final `result += closeTags(prevFormats)`. -/
def flushInlineGo (prevFormats : List InlineFormat) : List InlineText → String
  | [] => closeTags prevFormats
  | it :: rest =>
      let common := commonPrefixLen prevFormats it.formats
      closeTags (prevFormats.drop common) ++ openTags (it.formats.drop common)
        ++ it.text ++ flushInlineGo it.formats rest

/-- The string the current `flushInline` computes from the inline buffer. -/
def flushInlineResult (buf : List InlineText) : String :=
  flushInlineGo [] buf

/-- Source `flushInline` as a state operation: write the reconciled string,
then clear the inline buffer. -/
def flushInline (s : State) : State :=
  let s1 := write s (flushInlineResult s._inlineBuffer)
  { s1 with _inlineBuffer := [] }

/-! Tag-event view of `flushInline`.  The string result is exactly the
rendering of this event list (`flushInlineGo_eq_render` below); it lets the
bracketing claims speak about individual emitted tags. -/

/-- One emission of the reconciler: an open tag, a close tag, or run text. -/
inductive InlineEv where
  | openEv (f : InlineFormat)
  | closeEv (f : InlineFormat)
  | txtEv (s : String)
deriving DecidableEq, Repr

/-- String a single event contributes to the output. -/
def renderEv : InlineEv → String
  | .openEv f => f.openTag
  | .closeEv f => f.closeTag
  | .txtEv t => t

/-- Event trace of the current `flushInline` loop. -/
def inlineEventsGo (prevFormats : List InlineFormat) : List InlineText → List InlineEv
  | [] => prevFormats.reverse.map InlineEv.closeEv
  | it :: rest =>
      let common := commonPrefixLen prevFormats it.formats
      (prevFormats.drop common).reverse.map InlineEv.closeEv
        ++ (it.formats.drop common).map InlineEv.openEv
        ++ [InlineEv.txtEv it.text]
        ++ inlineEventsGo it.formats rest

/-- Event trace of `flushInline` over a whole buffer. -/
def flushInlineEvents (buf : List InlineText) : List InlineEv :=
  inlineEventsGo [] buf

/-! The historical reconciler `getInlineText` (first variant in the source),
with its `unclosedTags` stack threaded through the runs.  Its
`unclosableTags` array is created empty and never pushed to anywhere in the
source, so the `unclosableTags.find` branch of the `while` loop can never
fire and is omitted here. -/

/-- Source `isSameFormat` (curried in the source): the candidate `cand`
matches `format` when `type`, `openTag` and `htmlInline` agree (`closeTag`
is not compared). -/
def isSameFormat (format cand : InlineFormat) : Bool :=
  cand.type == format.type && cand.openTag == format.openTag
    && cand.htmlInline == format.htmlInline

/-- Source `hasFormat`: an absent neighbour has no formats. -/
def hasFormat : Option InlineText → InlineFormat → Bool
  | none, _ => false
  | some it, f => it.formats.any (fun g => isSameFormat f g)

/-- The opening loop of `process` in `getInlineText`.  The source dedups via
a JS `Set` of object references; the formats lists the module builds never
contain the same object twice, and the value-level membership test used here
coincides with that on such lists. -/
def openLoop (prev : Option InlineText) (it : InlineText) :
    List InlineFormat → List InlineFormat → List InlineFormat → String →
    List InlineFormat × String
  | [], _applied, unclosed, opening => (unclosed, opening)
  | f :: fs, applied, unclosed, opening =>
      if hasFormat (some it) f && decide (f ∉ applied) then
        if !hasFormat prev f || (unclosed.find? (fun g => isSameFormat f g)).isNone then
          openLoop prev it fs (f :: applied) (unclosed ++ [f]) (opening ++ f.openTag)
        else
          openLoop prev it fs (f :: applied) unclosed opening
      else openLoop prev it fs applied unclosed opening

/-- The closing `for` loop of `process`: scan `unclosedTags` for the first
index whose tag is not kept open by both the current and the next run;
return that index together with the current run's `nodeHasFormat` flag. -/
def closeScan (it : InlineText) (next : Option InlineText) :
    List InlineFormat → Nat → Option (Nat × Bool)
  | [], _ => none
  | f :: fs, i =>
      let nodeHas := hasFormat (some it) f
      let nextHas := hasFormat next f
      if nodeHas && nextHas then closeScan it next fs (i + 1) else some (i, nodeHas)

/-- Source `process`: returns the text contributed by this run and the
updated `unclosedTags` stack.  When the closing loop fires at index `i` it
pops every tag above and including `i`, appending the close tags in pop
order before the text (`closingTagsBefore`, when the run itself lacks the
format at `i`) or after it (`closingTagsAfter`). -/
def processInline (prev next : Option InlineText) (it : InlineText)
    (unclosed : List InlineFormat) : String × List InlineFormat :=
  let p := openLoop prev it it.formats [] unclosed ""
  match closeScan it next p.1 0 with
  | none => (p.2 ++ it.text, p.1)
  | some (i, nodeHas) =>
      let closes := strConcat ((p.1.drop i).reverse.map (fun f => f.closeTag))
      if nodeHas then (p.2 ++ it.text ++ closes, p.1.take i)
      else (closes ++ p.2 ++ it.text, p.1.take i)

/-- The `map`/`join` of `getInlineText`, with `prev` the previous run and
`unclosed` the mutable `unclosedTags` array. -/
def getInlineTextGo (prev : Option InlineText) (unclosed : List InlineFormat) :
    List InlineText → String
  | [] => ""
  | it :: rest =>
      let p := processInline prev rest.head? it unclosed
      p.1 ++ getInlineTextGo (some it) p.2 rest

/-- Source `getInlineText` (first variant): reconcile the buffer with the
`unclosedTags` deferral algorithm; the empty buffer yields the empty string. -/
def getInlineText (buf : List InlineText) : String :=
  getInlineTextGo none [] buf

/-- Source `flushInlineText` (first variant): write `getInlineText()` and
clear the buffer (`closeInlineText`). -/
def flushInlineText (s : State) : State :=
  let s1 := write s (getInlineText s._inlineBuffer)
  { s1 with _inlineBuffer := [] }

/-- First-variant `LineBreakNode` conversion: flush the inline buffer, then
ensure a newline. -/
def lineBreakConversionV1 (s : State) : State :=
  ensureNewLine (flushInlineText s)

/-! Conversion dispatch.  `convertBlock` in the source scans the conversion
collection and applies the non-null conversion with the highest priority;
the selection loop is modelled by `selectConversion` below, and the net
behaviour of the default collection (default map plus the heading map) is
modelled structurally by the `convertBlock` function on `LNode`. -/

/-- MarkdownConversion from the source, with the stored conversion function
abstracted to a payload `α` (the selection loop never inspects it); the
optional `priority` field defaults to 0 via `JS: priority || 0`. -/
structure MarkdownConversion (α : Type) where
  conversion : α
  priority : Option Nat
deriving DecidableEq, Repr

/-- Effective priority: `conversion.priority || 0`. -/
def effPriority {α : Type} (c : MarkdownConversion α) : Nat :=
  c.priority.getD 0

/-- One iteration of the selection loop, once a non-null candidate is seen:
replace the current winner only on strictly higher priority. -/
def pickStep {α : Type} (acc : Option (MarkdownConversion α))
    (c : MarkdownConversion α) : Option (MarkdownConversion α) :=
  match acc with
  | none => some c
  | some prev => if effPriority prev < effPriority c then some c else some prev

/-- The selection loop of `convertBlock`: each list entry is what one
registered map contributes for the node (`none` when the map has no entry
for the node type or its factory returned null). -/
def selectConversion {α : Type} (cands : List (Option (MarkdownConversion α))) :
    Option (MarkdownConversion α) :=
  cands.foldl
    (fun acc c? => match c? with | none => acc | some c => pickStep acc c)
    none

/-- Formats list built by the current text-leaf conversion, in the source's
push order: bold, strikethrough, italic, code, highlight, underline,
subscript, superscript. -/
def textFormatsList (f : TextFormats) : List InlineFormat :=
  (if f.bold then [⟨"bold", "**", "**", none⟩] else [])
    ++ (if f.strikethrough then [⟨"strikethrough", "~~", "~~", none⟩] else [])
    ++ (if f.italic then [⟨"italic", "*", "*", none⟩] else [])
    ++ (if f.code then [⟨"code", "`", "`", none⟩] else [])
    ++ (if f.highlight then [⟨"highlight", "<mark>", "</mark>", some true⟩] else [])
    ++ (if f.underline then [⟨"underline", "<u>", "</u>", some true⟩] else [])
    ++ (if f.subscript then [⟨"subscript", "<sub>", "</sub>", some true⟩] else [])
    ++ (if f.superscript then [⟨"superscript", "<sup>", "</sup>", some true⟩] else [])

/-- Decimal parsing of a digit string, agreeing with JS `Number` on the
digit suffixes of heading tags (`"h1"`..`"h6"`). -/
def parseNatDigits (cs : List Char) : Option Nat :=
  if cs ≠ [] ∧ cs.all (fun c => c.isDigit) then
    some (cs.foldl (fun n c => n * 10 + (c.toNat - '0'.toNat)) 0)
  else none

/-- The heading delimiter `'#'.repeat(Number(node.getTag().substring(1)))`. -/
def headingHashes (tag : String) : String :=
  String.mk (List.replicate ((parseNatDigits (tag.data.drop 1)).getD 0) '#')

mutual

/-- Net behaviour of source `convertBlock` under the default conversion
collection (default map plus the heading map): each embedded node kind is
handled by exactly one registered conversion, so dispatch reduces to this
structural match.  Paragraph and heading call `convertInline`, which for
element parents dispatches the children and then flushes the inline buffer. -/
def convertBlock : LNode → State → State
  | .textNode content fmts, s =>
      writeInline s { text := content, formats := textFormatsList fmts }
  | .lineBreakNode, s => ensureNewLine s
  | .tabNode, s => write s "    "
  | .paragraphNode cs, s =>
      if s._stopNewline then flushInline (convertChildren cs s)
      else
        let s1 :=
          if cs.isEmpty then write s "<br>" else flushInline (convertChildren cs s)
        closeBlock s1 (.paragraphNode cs)
  | .headingNode tag cs, s =>
      let s1 := write s (headingHashes tag ++ " ")
      let s2 := flushInline (convertChildren cs s1)
      closeBlock s2 (.headingNode tag cs)

/-- `children.forEach((node) => this.convertBlock(node))`. -/
def convertChildren : List LNode → State → State
  | [], s => s
  | c :: cs, s => convertChildren cs (convertBlock c s)

end

/-- Source `wrapBlock`: remember the delimiter, write the first delimiter
(`firstDelim || delim`, where a null or empty `firstDelim` falls back to
`delim`), extend the delimiter for the body, restore it, mark the block
closed. -/
def wrapBlock (delim : String) (firstDelim : Option String) (node : LNode)
    (fn : State → State) (s : State) : State :=
  let prevDelim := s._delim
  let s1 := write s (match firstDelim with
    | some fd => if fd = "" then delim else fd
    | none => delim)
  let s2 := { s1 with _delim := s1._delim ++ delim }
  let s3 := fn s2
  let s4 := { s3 with _delim := prevDelim }
  closeBlock s4 node

/-! Auxiliary notions the claims are stated with. -/

/-- The result buffer of `s'` extends that of `s` by some suffix. -/
def ResultExtends (s s' : State) : Prop :=
  ∃ t : String, s'._result = s._result ++ t

/-- Agreement on the two fields the `flushInline` common-prefix loop
compares: `type` and `htmlInline`. -/
def kindEq (f g : InlineFormat) : Prop :=
  f.type = g.type ∧ f.htmlInline = g.htmlInline

instance kindEqDecidable (f g : InlineFormat) : Decidable (kindEq f g) := by
  unfold kindEq; infer_instance

/-- Pointwise `kindEq` on lists of equal length. -/
def KindEqList : List InlineFormat → List InlineFormat → Prop
  | [], [] => True
  | f :: fs, g :: gs => kindEq f g ∧ KindEqList fs gs
  | _, _ => False

/-- Stack machine deciding whether a tag-event sequence is properly
bracketed, where a close tag matches the innermost open format exactly when
the two formats agree on `type` and `htmlInline`.  The run starts on an
ambient stack and must end with it empty, every close matching. -/
def checkNestKind : List InlineEv → List InlineFormat → Bool
  | [], stack => stack.isEmpty
  | .txtEv _ :: evs, stack => checkNestKind evs stack
  | .openEv f :: evs, stack => checkNestKind evs (f :: stack)
  | .closeEv _ :: _, [] => false
  | .closeEv f :: evs, g :: stack =>
      if kindEq f g then checkNestKind evs stack else false

/-- Stack machine for strict bracketing: a close tag must match the
innermost open format on every field. -/
def checkNestStrict : List InlineEv → List InlineFormat → Bool
  | [], stack => stack.isEmpty
  | .txtEv _ :: evs, stack => checkNestStrict evs stack
  | .openEv f :: evs, stack => checkNestStrict evs (f :: stack)
  | .closeEv _ :: _, [] => false
  | .closeEv f :: evs, g :: stack =>
      if f = g then checkNestStrict evs stack else false

/-- All formats carried by the runs of a buffer. -/
def bufFormats (buf : List InlineText) : List InlineFormat :=
  (buf.map (fun it => it.formats)).flatten

/-- A buffer is tag-coherent when each format kind (`type` plus
`htmlInline`) keeps a single tag pair across the buffer: any two of its
formats that agree on kind are equal. -/
def FormatsCoherent (buf : List InlineText) : Prop :=
  ∀ f ∈ bufFormats buf, ∀ g ∈ bufFormats buf, kindEq f g → f = g

instance formatsCoherentDecidable (buf : List InlineText) :
    Decidable (FormatsCoherent buf) := by
  unfold FormatsCoherent; infer_instance

/-- Node kinds whose conversions are inline (the legal children of a
paragraph): text leaves, line breaks, tabs. -/
def isInlineLeaf : LNode → Bool
  | .textNode _ _ => true
  | .lineBreakNode => true
  | .tabNode => true
  | _ => false

/-! Concrete fixtures used by the counterexamples and witnesses. -/

/-- Bold format as built by the text-leaf conversion. -/
def boldFmt : InlineFormat := ⟨"bold", "**", "**", none⟩

/-- Italic format with the `*` tag pair. -/
def italicFmt : InlineFormat := ⟨"italic", "*", "*", none⟩

/-- Italic format with the alternate `_` tag pair (same kind, different
open tag). -/
def italicUnderscoreFmt : InlineFormat := ⟨"italic", "_", "_", none⟩

/-- Two consecutive runs that both carry bold, at different positions of
their format lists. -/
def bufBoldShift : List InlineText :=
  [⟨"a", [boldFmt]⟩, ⟨"b", [italicFmt, boldFmt]⟩]

/-- Two consecutive runs that both carry bold as their whole format list. -/
def bufBoldPair : List InlineText :=
  [⟨"a", [boldFmt]⟩, ⟨"b", [boldFmt]⟩]

/-- Consecutive runs of the same kind with different open tags (texts a/b). -/
def bufItalicMixedAB : List InlineText :=
  [⟨"a", [italicFmt]⟩, ⟨"b", [italicUnderscoreFmt]⟩]

/-- Consecutive runs of the same kind with different open tags (texts x/y). -/
def bufItalicMixedXY : List InlineText :=
  [⟨"x", [italicFmt]⟩, ⟨"y", [italicUnderscoreFmt]⟩]

/-- A state with blank-line suppression on and a pending block close. -/
def stateSuppressedPending : State :=
  { _delim := "", _result := "x", _closed := some .lineBreakNode,
    _stopNewline := true, _inlineBuffer := [] }

/-- A fresh state holding one buffered inline run. -/
def stateWithBufferedRun : State :=
  { initState with _inlineBuffer := [⟨"a", []⟩] }

/-- All text-format flags off. -/
def noFormats : TextFormats := ⟨false, false, false, false, false, false, false, false⟩

/-! General helper lemmas. -/

theorem strConcat_append (a b : List String) :
    strConcat (a ++ b) = strConcat a ++ strConcat b := by
  induction a with
  | nil => simp [strConcat]
  | cons x xs ih => simp [strConcat, ih, String.append_assoc]

theorem commonPrefixLen_self (l : List InlineFormat) :
    commonPrefixLen l l = l.length := by
  induction l with
  | nil => rfl
  | cons f fs ih => simp [commonPrefixLen, ih]

theorem commonPrefixLen_nil_left (l : List InlineFormat) :
    commonPrefixLen [] l = 0 := by
  cases l <;> rfl

/-- On a buffer whose runs all carry the same format list `F`, the
`flushInline` loop body contributes only the texts plus the final closes. -/
theorem flushInlineGo_uniform (F : List InlineFormat) (buf : List InlineText)
    (h : ∀ r ∈ buf, r.formats = F) :
    flushInlineGo F buf = strConcat (buf.map (fun r => r.text)) ++ closeTags F := by
  induction buf with
  | nil => simp [flushInlineGo, strConcat]
  | cons r rest ih =>
      have hr : r.formats = F := h r (by simp)
      have hrest : ∀ x ∈ rest, x.formats = F := fun x hx => h x (by simp [hx])
      simp only [flushInlineGo, hr, commonPrefixLen_self, List.drop_length,
        List.map_cons, strConcat, ih hrest]
      simp [closeTags, openTags, strConcat, String.append_assoc]

theorem inlineEventsGo_uniform (F : List InlineFormat) (buf : List InlineText)
    (h : ∀ r ∈ buf, r.formats = F) :
    inlineEventsGo F buf
      = buf.map (fun r => InlineEv.txtEv r.text) ++ F.reverse.map InlineEv.closeEv := by
  induction buf with
  | nil => simp [inlineEventsGo]
  | cons r rest ih =>
      have hr : r.formats = F := h r (by simp)
      have hrest : ∀ x ∈ rest, x.formats = F := fun x hx => h x (by simp [hx])
      simp [inlineEventsGo, hr, commonPrefixLen_self, List.drop_length, ih hrest]

/-! Claim C1. -/

/-- C1, counterexample: in the buffer `bufBoldShift` both consecutive runs
carry bold, yet `flushInline` emits two bold open tags (and two bold close
tags): the output is `**a*****b***`, not a single pair wrapping the block.
The claim as stated is therefore false on the code. -/
theorem c1_counterexample :
    (∀ r ∈ bufBoldShift, boldFmt ∈ r.formats)
    ∧ (flushInlineEvents bufBoldShift).count (InlineEv.openEv boldFmt) = 2
    ∧ (flushInlineEvents bufBoldShift).count (InlineEv.closeEv boldFmt) = 2
    ∧ flushInlineResult bufBoldShift = "**a*****b***" := by
  refine ⟨by decide, by decide, by decide, by decide⟩

/-- C1, amended: when a contiguous block of consecutive runs carries the
same format in the same position — in particular when its runs have
identical format lists, the buffer forming the block — `flushInline` emits
exactly one open and one close event per format, wrapping the whole block;
concretely two consecutive bold runs a and b reconcile to `**ab**` (under
both reconcilers), never `**a****b**`. -/
theorem c1_amended :
    (∀ (F : List InlineFormat) (buf : List InlineText), buf ≠ [] →
        (∀ r ∈ buf, r.formats = F) →
        flushInlineEvents buf
          = F.map InlineEv.openEv ++ buf.map (fun r => InlineEv.txtEv r.text)
              ++ F.reverse.map InlineEv.closeEv
        ∧ flushInlineResult buf
          = openTags F ++ strConcat (buf.map (fun r => r.text)) ++ closeTags F)
    ∧ flushInlineResult bufBoldPair = "**ab**"
    ∧ getInlineText bufBoldPair = "**ab**"
    ∧ flushInlineResult bufBoldPair ≠ "**a****b**" := by
  refine ⟨?_, by decide, by decide, by decide⟩
  intro F buf hne h
  match buf, hne with
  | r :: rest, _ =>
      have hr : r.formats = F := h r (by simp)
      have hrest : ∀ x ∈ rest, x.formats = F := fun x hx => h x (by simp [hx])
      constructor
      · simp [flushInlineEvents, inlineEventsGo, commonPrefixLen_nil_left, hr,
          inlineEventsGo_uniform F rest hrest]
      · simp [flushInlineResult, flushInlineGo, commonPrefixLen_nil_left, hr,
          flushInlineGo_uniform F rest hrest, closeTags, strConcat,
          String.append_assoc]

/-- Witness for `c1_amended`: the general part instantiated at the
two-bold-runs buffer. -/
theorem c1_amended_witness :
    flushInlineEvents bufBoldPair
      = [boldFmt].map InlineEv.openEv
          ++ bufBoldPair.map (fun r => InlineEv.txtEv r.text)
          ++ [boldFmt].reverse.map InlineEv.closeEv
    ∧ flushInlineResult bufBoldPair
      = openTags [boldFmt] ++ strConcat (bufBoldPair.map (fun r => r.text))
          ++ closeTags [boldFmt] :=
  c1_amended.1 [boldFmt] bufBoldPair (by decide) (by decide)

/-! Claim C3. -/

/-- C3, counterexample: with blank-line suppression on and a close pending,
`flushClose` returns with the pending-close marker still set (the early
return skips the clearing assignment), contradicting the claim that the
marker is always cleared. -/
theorem c3_counterexample :
    flushClose stateSuppressedPending 2 = stateSuppressedPending
    ∧ (flushClose stateSuppressedPending 2)._closed.isSome = true :=
  ⟨rfl, rfl⟩

/-- C3, amended: after `flushClose` the pending-close marker is cleared
whenever blank-line suppression is off (including when nothing was pending
or no output was emitted); when suppression is on the call is a complete
no-op and the marker keeps its previous value. -/
theorem c3_amended : ∀ (s : State) (size : Nat),
    (s._stopNewline = false → (flushClose s size)._closed = none)
    ∧ (s._stopNewline = true → flushClose s size = s) := by
  intro s size
  constructor
  · intro hstop
    unfold flushClose
    rcases hc : s._closed with _ | n
    · simp [hstop, hc]
    · simp [hstop, hc]
  · intro hstop
    unfold flushClose
    simp [hstop]

/-- Witness for `c3_amended`: on the initial state the marker is `none`
after the call. -/
theorem c3_amended_witness : (flushClose initState 2)._closed = none :=
  (c3_amended initState 2).1 rfl

/-! Claim C8. -/

theorem isInBlank_addOutput_newline (s : State) :
    isInBlank (addOutput s "\n") = true := by
  simp [isInBlank, addOutput, String.data_append]

/-- C8, confirmed: `ensureNewLine` appends a newline exactly when the output
is not empty and does not already end with one, and calling it twice equals
calling it once. -/
theorem c8_ensureNewLine_idem : ∀ s : State,
    ensureNewLine (ensureNewLine s) = ensureNewLine s
    ∧ (ensureNewLine s)._result
        = (if isInBlank s then s._result else s._result ++ "\n") := by
  intro s
  by_cases h : isInBlank s
  · simp [ensureNewLine, h]
  · have h1 : ensureNewLine s = addOutput s "\n" := by
      simp [ensureNewLine, h]
    refine ⟨?_, by simp [h1, addOutput, h]⟩
    rw [h1]
    simp [ensureNewLine, isInBlank_addOutput_newline]

/-! Bracketing of the `flushInline` event trace (claim C4). -/

theorem flushInlineGo_eq_render (buf : List InlineText) :
    ∀ prev, flushInlineGo prev buf = strConcat ((inlineEventsGo prev buf).map renderEv) := by
  induction buf with
  | nil =>
      intro prev
      simp [flushInlineGo, inlineEventsGo, closeTags, List.map_map, renderEv]
      rfl
  | cons it rest ih =>
      intro prev
      simp only [flushInlineGo, inlineEventsGo, List.map_append, strConcat_append,
        List.map_map, ih]
      simp [closeTags, openTags, List.map_map, renderEv, strConcat,
        String.append_assoc]
      rfl

/-- The string `flushInline` writes is the rendering of its event trace. -/
theorem flushInlineResult_eq_render (buf : List InlineText) :
    flushInlineResult buf = strConcat ((flushInlineEvents buf).map renderEv) :=
  flushInlineGo_eq_render buf []

theorem kindEq_refl (f : InlineFormat) : kindEq f f := ⟨rfl, rfl⟩

theorem kindEq_symm {f g : InlineFormat} (h : kindEq f g) : kindEq g f :=
  ⟨h.1.symm, h.2.symm⟩

theorem kindEq_trans {f g h : InlineFormat} (h1 : kindEq f g) (h2 : kindEq g h) :
    kindEq f h :=
  ⟨h1.1.trans h2.1, h1.2.trans h2.2⟩

theorem kindEqList_refl (l : List InlineFormat) : KindEqList l l := by
  induction l with
  | nil => trivial
  | cons f fs ih => exact ⟨kindEq_refl f, ih⟩

theorem kindEqList_symm : ∀ {a b : List InlineFormat}, KindEqList a b → KindEqList b a
  | [], [], _ => trivial
  | _ :: _, _ :: _, ⟨h, hs⟩ => ⟨kindEq_symm h, kindEqList_symm hs⟩

theorem kindEqList_trans : ∀ {a b c : List InlineFormat},
    KindEqList a b → KindEqList b c → KindEqList a c
  | [], [], [], _, _ => trivial
  | _ :: _, _ :: _, _ :: _, ⟨h1, hs1⟩, ⟨h2, hs2⟩ =>
      ⟨kindEq_trans h1 h2, kindEqList_trans hs1 hs2⟩

theorem kindEqList_append : ∀ {a b c d : List InlineFormat},
    KindEqList a b → KindEqList c d → KindEqList (a ++ c) (b ++ d)
  | [], [], _, _, _, h2 => h2
  | _ :: _, _ :: _, _, _, ⟨h, hs⟩, h2 => ⟨h, kindEqList_append hs h2⟩

theorem kindEqList_singleton {f g : InlineFormat} (h : kindEq f g) :
    KindEqList [f] [g] := ⟨h, trivial⟩

theorem kindEqList_reverse : ∀ {a b : List InlineFormat},
    KindEqList a b → KindEqList a.reverse b.reverse
  | [], [], _ => trivial
  | _ :: _, _ :: _, ⟨h, hs⟩ => by
      simp only [List.reverse_cons]
      exact kindEqList_append (kindEqList_reverse hs) (kindEqList_singleton h)

theorem kindEqList_split : ∀ {st a b : List InlineFormat},
    KindEqList st (a ++ b) →
    ∃ st1 st2, st = st1 ++ st2 ∧ KindEqList st1 a ∧ KindEqList st2 b := by
  intro st a
  induction a generalizing st with
  | nil => exact fun h => ⟨[], st, rfl, trivial, h⟩
  | cons x xs ih =>
      intro b h
      match st, h with
      | y :: ys, ⟨hy, hs⟩ =>
          obtain ⟨st1, st2, heq, h1, h2⟩ := ih hs
          exact ⟨y :: st1, st2, by simp [heq], ⟨hy, h1⟩, h2⟩

/-- Positions scanned by the common-prefix loop agree on kind. -/
theorem commonPrefixLen_take : ∀ (l1 l2 : List InlineFormat),
    KindEqList (l1.take (commonPrefixLen l1 l2)) (l2.take (commonPrefixLen l1 l2))
  | [], [] => trivial
  | [], _ :: _ => trivial
  | _ :: _, [] => trivial
  | f :: fs, g :: gs => by
      by_cases h : f.type = g.type ∧ f.htmlInline = g.htmlInline
      · simpa [commonPrefixLen, h] using ⟨h, commonPrefixLen_take fs gs⟩
      · simp [commonPrefixLen, h]
        trivial

theorem checkNestKind_closes : ∀ {l st : List InlineFormat}, KindEqList l st →
    ∀ (evs : List InlineEv) (rest : List InlineFormat),
    checkNestKind (l.map InlineEv.closeEv ++ evs) (st ++ rest) = checkNestKind evs rest
  | [], [], _, _, _ => rfl
  | f :: fs, g :: gs, ⟨h, hs⟩, evs, rest => by
      simp only [List.map_cons, List.cons_append, checkNestKind, if_pos h]
      exact checkNestKind_closes hs evs rest

theorem checkNestKind_opens : ∀ (fs : List InlineFormat) (evs : List InlineEv)
    (st : List InlineFormat),
    checkNestKind (fs.map InlineEv.openEv ++ evs) st
      = checkNestKind evs (fs.reverse ++ st)
  | [], _, _ => rfl
  | f :: fs, evs, st => by
      simp only [List.map_cons, List.cons_append, checkNestKind,
        List.reverse_cons, List.append_assoc, List.singleton_append]
      exact checkNestKind_opens fs evs (f :: st)

/-- Invariant of the event trace: started on any stack kind-equal to the
reversed previous-format list, the checker accepts. -/
theorem checkNestKind_go (buf : List InlineText) :
    ∀ (prev st : List InlineFormat), KindEqList st prev.reverse →
    checkNestKind (inlineEventsGo prev buf) st = true := by
  induction buf with
  | nil =>
      intro prev st h
      have h2 := checkNestKind_closes (kindEqList_symm h) [] []
      simpa [inlineEventsGo] using h2
  | cons it rest ih =>
      intro prev st h
      set c := commonPrefixLen prev it.formats with hc
      have hsplitPrev : prev.reverse = (prev.drop c).reverse ++ (prev.take c).reverse := by
        rw [← List.reverse_append, List.take_append_drop]
      rw [hsplitPrev] at h
      obtain ⟨st1, st2, hst, h1, h2⟩ := kindEqList_split h
      have step1 := checkNestKind_closes (kindEqList_symm h1)
        ((it.formats.drop c).map InlineEv.openEv ++ InlineEv.txtEv it.text
          :: inlineEventsGo it.formats rest) st2
      have step2 := checkNestKind_opens (it.formats.drop c)
        (InlineEv.txtEv it.text :: inlineEventsGo it.formats rest) st2
      have hnext : KindEqList ((it.formats.drop c).reverse ++ st2) it.formats.reverse := by
        have hsplitF : it.formats.reverse
            = (it.formats.drop c).reverse ++ (it.formats.take c).reverse := by
          rw [← List.reverse_append, List.take_append_drop]
        rw [hsplitF]
        refine kindEqList_append (kindEqList_refl _) ?_
        exact kindEqList_trans h2 (kindEqList_reverse (commonPrefixLen_take prev it.formats))
      have step3 := ih it.formats ((it.formats.drop c).reverse ++ st2) hnext
      simp only [inlineEventsGo, ← hc, hst, List.append_assoc, List.cons_append,
        List.nil_append] at step1 step2 ⊢
      rw [step1, step2]
      simpa [checkNestKind] using step3

theorem bufFormats_cons (it : InlineText) (rest : List InlineText) :
    bufFormats (it :: rest) = it.formats ++ bufFormats rest := rfl

theorem inlineEventsGo_open_mem : ∀ (buf : List InlineText)
    (prev : List InlineFormat) (f : InlineFormat),
    InlineEv.openEv f ∈ inlineEventsGo prev buf → f ∈ bufFormats buf := by
  intro buf
  induction buf with
  | nil =>
      intro prev f h
      simp [inlineEventsGo] at h
  | cons it rest ih =>
      intro prev f h
      rw [bufFormats_cons, List.mem_append]
      simp only [inlineEventsGo, List.mem_append, List.mem_map, List.mem_singleton,
        List.mem_reverse] at h
      rcases h with ((⟨a, _, ha⟩ | ⟨a, hmem, ha⟩) | ht) | h
      · cases ha
      · obtain rfl : a = f := by injection ha
        exact Or.inl (List.drop_subset _ _ hmem)
      · cases ht
      · exact Or.inr (ih it.formats f h)

theorem inlineEventsGo_close_mem : ∀ (buf : List InlineText)
    (prev : List InlineFormat) (f : InlineFormat),
    InlineEv.closeEv f ∈ inlineEventsGo prev buf → f ∈ prev ∨ f ∈ bufFormats buf := by
  intro buf
  induction buf with
  | nil =>
      intro prev f h
      simp only [inlineEventsGo, List.mem_map, List.mem_reverse] at h
      obtain ⟨a, hmem, ha⟩ := h
      obtain rfl : a = f := by injection ha
      exact Or.inl hmem
  | cons it rest ih =>
      intro prev f h
      simp only [inlineEventsGo, List.mem_append, List.mem_map, List.mem_singleton,
        List.mem_reverse] at h
      rcases h with ((⟨a, hmem, ha⟩ | ⟨a, _, ha⟩) | ht) | h
      · obtain rfl : a = f := by injection ha
        exact Or.inl (List.drop_subset _ _ hmem)
      · cases ha
      · cases ht
      · rw [bufFormats_cons]
        rcases ih it.formats f h with h1 | h1
        · exact Or.inr (List.mem_append.2 (Or.inl h1))
        · exact Or.inr (List.mem_append.2 (Or.inr h1))

/-- On events and stacks drawn from a pool in which kind-equal formats are
equal, the strict checker agrees with the kind-level checker. -/
theorem checkNestStrict_eq_kind (pool : List InlineFormat)
    (hcoh : ∀ f ∈ pool, ∀ g ∈ pool, kindEq f g → f = g) :
    ∀ (evs : List InlineEv) (st : List InlineFormat),
      (∀ f, InlineEv.openEv f ∈ evs → f ∈ pool) →
      (∀ f, InlineEv.closeEv f ∈ evs → f ∈ pool) →
      (∀ f ∈ st, f ∈ pool) →
      checkNestStrict evs st = checkNestKind evs st := by
  intro evs
  induction evs with
  | nil => intro st _ _ _; rfl
  | cons ev evs ih =>
      intro st hopen hclose hst
      have hopen' : ∀ f, InlineEv.openEv f ∈ evs → f ∈ pool :=
        fun f hf => hopen f (by simp [hf])
      have hclose' : ∀ f, InlineEv.closeEv f ∈ evs → f ∈ pool :=
        fun f hf => hclose f (by simp [hf])
      cases ev with
      | txtEv t => exact ih st hopen' hclose' hst
      | openEv g =>
          show checkNestStrict evs (g :: st) = checkNestKind evs (g :: st)
          refine ih (g :: st) hopen' hclose' ?_
          intro f hf
          rcases List.mem_cons.1 hf with rfl | hf
          · exact hopen f (by simp)
          · exact hst f hf
      | closeEv g =>
          cases st with
          | nil => rfl
          | cons h st' =>
              show (if g = h then checkNestStrict evs st' else false)
                = (if kindEq g h then checkNestKind evs st' else false)
              by_cases hk : kindEq g h
              · have hg : g ∈ pool := hclose g (by simp)
                have hh : h ∈ pool := hst h (by simp)
                have : g = h := hcoh g hg h hh hk
                rw [if_pos this, if_pos hk]
                exact ih st' hopen' hclose' (fun f hf => hst f (by simp [hf]))
              · have hne : g ≠ h := fun he => hk (he ▸ kindEq_refl g)
                rw [if_neg hne, if_neg hk]

/-- Under tag coherence the strict checker accepts the whole trace. -/
theorem checkNestStrict_flushInline_coherent (buf : List InlineText)
    (h : FormatsCoherent buf) :
    checkNestStrict (flushInlineEvents buf) [] = true := by
  have hagree := checkNestStrict_eq_kind (bufFormats buf) h (flushInlineEvents buf) []
    (fun f hf => inlineEventsGo_open_mem buf [] f hf)
    (fun f hf => by
      rcases inlineEventsGo_close_mem buf [] f hf with h1 | h1
      · cases h1
      · exact h1)
    (fun f hf => absurd hf (List.not_mem_nil f))
  rw [hagree]
  exact checkNestKind_go buf [] [] trivial

/-! Claim C4. -/

/-- C4, counterexample: a buffer mapping one kind (italic) to two different
tag pairs makes `flushInline` open with one tag and close with the other:
the output is `*xy_`, whose open `*` has no strictly matching close.  The
claim as stated (every open tag matched exactly by its own close) is
therefore false on the code. -/
theorem c4_counterexample :
    checkNestStrict (flushInlineEvents bufItalicMixedXY) [] = false
    ∧ flushInlineResult bufItalicMixedXY = "*xy_" := by
  refine ⟨by decide, by decide⟩

/-- C4, amended: for every inline-run buffer the reconciled event trace is
well-bracketed at the level of format kind (`type` plus `htmlInline`, the
fields the reconciler compares): every open is closed by exactly one
matching close, the last-opened format closes first, and nothing remains
open after the final run; and strict tag-string matching additionally holds
whenever each kind keeps one tag pair across the buffer. -/
theorem c4_amended :
    (∀ buf : List InlineText, checkNestKind (flushInlineEvents buf) [] = true)
    ∧ (∀ buf : List InlineText, FormatsCoherent buf →
        checkNestStrict (flushInlineEvents buf) [] = true) :=
  ⟨fun buf => checkNestKind_go buf [] [] trivial,
    fun buf h => checkNestStrict_flushInline_coherent buf h⟩

/-- Witness for `c4_amended`: the coherent two-run bold/italic buffer passes
the strict checker. -/
theorem c4_amended_witness :
    checkNestStrict (flushInlineEvents bufBoldShift) [] = true :=
  c4_amended.2 bufBoldShift (by decide)

/-! Claim C5. -/

/-- C5, counterexample: the common-prefix loop of `flushInline` treats two
italic formats with different open tags (`*` versus `_`) as the same format
(it compares only `type` and `htmlInline`), so the tag is not closed and
reopened between the runs: the buffer reconciles to `*ab_`, not to the
close-and-reopen output `*a*_b_` the claim predicts. -/
theorem c5_counterexample :
    commonPrefixLen [italicFmt] [italicUnderscoreFmt] = 1
    ∧ flushInlineResult bufItalicMixedAB = "*ab_"
    ∧ flushInlineResult bufItalicMixedAB ≠ "*a*_b_" := by
  refine ⟨by decide, by decide, by decide⟩

/-- C5, amended: the historical reconciler's `isSameFormat` indeed compares
exactly `type`, `openTag` and `htmlInline` and never `closeTag`; but the
common-prefix comparison of the current `flushInline` compares only `type`
and `htmlInline`, so two formats of the same kind with different open tags
are treated as the same format there and no close/reopen is emitted between
the runs (the block keeps the first run's open tag and ends with the last
run's close tag). -/
theorem c5_amended :
    (∀ f g : InlineFormat,
        isSameFormat f g = true
          ↔ (g.type = f.type ∧ g.openTag = f.openTag ∧ g.htmlInline = f.htmlInline))
    ∧ (∀ (f g : InlineFormat) (c c' : String),
        isSameFormat { f with closeTag := c } { g with closeTag := c' }
          = isSameFormat f g)
    ∧ (∀ (f g : InlineFormat) (fs gs : List InlineFormat),
        f.type = g.type → f.htmlInline = g.htmlInline →
        commonPrefixLen (f :: fs) (g :: gs) = commonPrefixLen fs gs + 1) := by
  refine ⟨?_, ?_, ?_⟩
  · intro f g
    simp [isSameFormat, and_assoc]
  · intro f g c c'
    rfl
  · intro f g fs gs h1 h2
    simp [commonPrefixLen, h1, h2]

/-- Witness for `c5_amended`: the common-prefix step applied to the two
italic variants. -/
theorem c5_amended_witness :
    commonPrefixLen (italicFmt :: []) (italicUnderscoreFmt :: [])
      = commonPrefixLen [] [] + 1 :=
  c5_amended.2.2 italicFmt italicUnderscoreFmt [] [] rfl rfl

/-! Selection of the winning conversion (claim C2). -/

theorem selectConversion_eq_reduceOption {α : Type}
    (cands : List (Option (MarkdownConversion α))) :
    selectConversion cands = cands.reduceOption.foldl pickStep none := by
  show List.foldl _ none cands = _
  generalize (none : Option (MarkdownConversion α)) = acc
  induction cands generalizing acc with
  | nil => rfl
  | cons c? rest ih => cases c? <;> simp [List.reduceOption, List.foldl, ih]

/-- The first element of a list attaining the maximal effective priority:
everything before it is strictly smaller, everything after it no larger. -/
def IsFirstMax {α : Type} (cs : List (MarkdownConversion α))
    (m : MarkdownConversion α) : Prop :=
  ∃ pre post, cs = pre ++ m :: post
    ∧ (∀ c ∈ pre, effPriority c < effPriority m)
    ∧ (∀ c ∈ post, effPriority c ≤ effPriority m)

theorem foldl_pickStep_some {α : Type} :
    ∀ (cs pre mid : List (MarkdownConversion α)) (m : MarkdownConversion α),
    (∀ c ∈ pre, effPriority c < effPriority m) →
    (∀ c ∈ mid, effPriority c ≤ effPriority m) →
    ∃ m', cs.foldl pickStep (some m) = some m'
      ∧ IsFirstMax (pre ++ m :: mid ++ cs) m' := by
  intro cs
  induction cs with
  | nil =>
      intro pre mid m hpre hmid
      exact ⟨m, rfl, pre, mid, by simp, hpre, hmid⟩
  | cons c rest ih =>
      intro pre mid m hpre hmid
      by_cases h : effPriority m < effPriority c
      · have step : pickStep (some m) c = some c := by simp [pickStep, h]
        obtain ⟨m', hfold, hmax⟩ := ih (pre ++ m :: mid) [] c
          (by
            intro x hx
            rcases List.mem_append.1 hx with hx | hx
            · exact lt_trans (hpre x hx) h
            · rcases List.mem_cons.1 hx with rfl | hx
              · exact h
              · exact lt_of_le_of_lt (hmid x hx) h)
          (by intro x hx; cases hx)
        refine ⟨m', by simpa [List.foldl, step] using hfold, ?_⟩
        obtain ⟨pre', post', heq, hp, hq⟩ := hmax
        exact ⟨pre', post', by simpa [List.append_assoc] using heq, hp, hq⟩
      · have step : pickStep (some m) c = some m := by simp [pickStep, h]
        obtain ⟨m', hfold, hmax⟩ := ih pre (mid ++ [c]) m hpre
          (by
            intro x hx
            rcases List.mem_append.1 hx with hx | hx
            · exact hmid x hx
            · rcases List.mem_singleton.1 hx with rfl
              exact le_of_not_lt h)
        refine ⟨m', by simpa [List.foldl, step] using hfold, ?_⟩
        obtain ⟨pre', post', heq, hp, hq⟩ := hmax
        exact ⟨pre', post', by simpa [List.append_assoc] using heq, hp, hq⟩

theorem selectConversion_isFirstMax {α : Type}
    (cands : List (Option (MarkdownConversion α))) (m : MarkdownConversion α)
    (h : selectConversion cands = some m) : IsFirstMax cands.reduceOption m := by
  rw [selectConversion_eq_reduceOption] at h
  rcases hro : cands.reduceOption with _ | ⟨c, rest⟩
  · rw [hro] at h; cases h
  · rw [hro] at h
    obtain ⟨m', hfold, hmax⟩ := foldl_pickStep_some rest [] [] c
      (by intro x hx; cases hx) (by intro x hx; cases hx)
    simp only [List.foldl] at h
    rw [show pickStep none c = some c from rfl] at h
    rw [h] at hfold
    obtain rfl : m' = m := by injection hfold with h2; exact h2.symm
    exact hmax

/-! Claim C2. -/

/-- C2, confirmed: the selection loop of `convertBlock` returns nothing
exactly when every map declined; otherwise it returns a non-null candidate
of maximal effective priority (`priority || 0`), namely the first-registered
one attaining that maximum (everything registered before it has strictly
smaller priority, everything after no larger); consequently a candidate
whose priority strictly dominates all others is selected no matter where in
the registration order it sits. -/
theorem c2_selectConversion {α : Type} :
    (∀ cands : List (Option (MarkdownConversion α)),
        (selectConversion cands = none ↔ cands.reduceOption = []))
    ∧ (∀ (cands : List (Option (MarkdownConversion α))) (m : MarkdownConversion α),
        selectConversion cands = some m →
        ∃ pre post, cands.reduceOption = pre ++ m :: post
          ∧ (∀ c ∈ pre, effPriority c < effPriority m)
          ∧ (∀ c ∈ post, effPriority c ≤ effPriority m))
    ∧ (∀ (cands : List (Option (MarkdownConversion α))) (w : MarkdownConversion α),
        w ∈ cands.reduceOption →
        (∀ c ∈ cands.reduceOption, c ≠ w → effPriority c < effPriority w) →
        selectConversion cands = some w) := by
  have hnone : ∀ cands : List (Option (MarkdownConversion α)),
      (selectConversion cands = none ↔ cands.reduceOption = []) := by
    intro cands
    rw [selectConversion_eq_reduceOption]
    rcases hro : cands.reduceOption with _ | ⟨c, rest⟩
    · simp
    · obtain ⟨m', hfold, _⟩ := foldl_pickStep_some rest [] [] c
        (by intro x hx; cases hx) (by intro x hx; cases hx)
      simp only [List.foldl]
      rw [show pickStep none c = some c from rfl, hfold]
      simp
  refine ⟨hnone, fun cands m h => selectConversion_isFirstMax cands m h, ?_⟩
  intro cands w hw hdom
  rcases hsel : selectConversion cands with _ | m
  · rw [hnone cands] at hsel
    rw [hsel] at hw
    cases hw
  · obtain ⟨pre, post, heq, hpre, hpost⟩ := selectConversion_isFirstMax cands m hsel
    by_cases hmw : m = w
    · rw [hmw]
    · have hmlt : effPriority m < effPriority w := by
        refine hdom m ?_ hmw
        rw [heq]; simp
      have hwmem : w ∈ pre ++ m :: post := by rw [← heq]; exact hw
      rcases List.mem_append.1 hwmem with hx | hx
      · exact absurd (lt_trans (hpre w hx) hmlt) (lt_irrefl _)
      · rcases List.mem_cons.1 hx with rfl | hx
        · exact absurd rfl hmw
        · exact absurd (lt_of_le_of_lt (hpost w hx) hmlt) (lt_irrefl _)

/-- Witness for `c2_selectConversion`: with a priority-1 candidate, a
declining map, and a priority-3 candidate, the priority-3 conversion wins
although it is registered last. -/
theorem c2_selectConversion_witness :
    selectConversion
      [some ⟨(1 : Nat), some 1⟩, none, some ⟨(2 : Nat), some 3⟩]
      = some ⟨(2 : Nat), some 3⟩ :=
  c2_selectConversion.2.2
    [some ⟨(1 : Nat), some 1⟩, none, some ⟨(2 : Nat), some 3⟩]
    ⟨(2 : Nat), some 3⟩ (by decide) (by decide)

/-! State-field helper lemmas. -/

theorem addOutput_addOutput (s : State) (a b : String) :
    addOutput (addOutput s a) b = addOutput s (a ++ b) := by
  simp [addOutput, String.append_assoc]

theorem flushClose_stop {s : State} (size : Nat) (h : s._stopNewline = true) :
    flushClose s size = s := by
  simp [flushClose, h]

theorem flushClose_of_closed_none {s : State} (size : Nat) (h : s._closed = none) :
    flushClose s size = s := by
  simp [flushClose, h]

theorem ensureNewLine_exists_addOutput (s : State) :
    ∃ t, ensureNewLine s = addOutput s t := by
  by_cases h : isInBlank s
  · exact ⟨"", by simp [ensureNewLine, h, addOutput]⟩
  · exact ⟨"\n", by simp [ensureNewLine, h]⟩

theorem write_of_flushClose_self {s : State} (c : String)
    (h : flushClose s 2 = s) : ∃ t, write s c = addOutput s t := by
  show ∃ t,
    (let s1 := flushClose s 2
     let s2 := if s1._delim ≠ "" && isInBlank s1 then addOutput s1 s1._delim else s1
     if c ≠ "" then addOutput s2 c else s2) = addOutput s t
  simp only [h]
  split
  · split
    · exact ⟨s._delim ++ c, addOutput_addOutput s _ c⟩
    · exact ⟨c, rfl⟩
  · split
    · exact ⟨s._delim, rfl⟩
    · exact ⟨"", by simp [addOutput]⟩

theorem write_exists_addOutput_of_stop {s : State} (c : String)
    (h : s._stopNewline = true) : ∃ t, write s c = addOutput s t :=
  write_of_flushClose_self c (flushClose_stop 2 h)

theorem write_exists_addOutput_of_closed_none {s : State} (c : String)
    (h : s._closed = none) : ∃ t, write s c = addOutput s t :=
  write_of_flushClose_self c (flushClose_of_closed_none 2 h)

theorem addOutput_delim (s : State) (t : String) :
    (addOutput s t)._delim = s._delim := rfl

theorem addOutput_closed (s : State) (t : String) :
    (addOutput s t)._closed = s._closed := rfl

theorem addOutput_stop (s : State) (t : String) :
    (addOutput s t)._stopNewline = s._stopNewline := rfl

theorem addOutput_buffer (s : State) (t : String) :
    (addOutput s t)._inlineBuffer = s._inlineBuffer := rfl

theorem ensureNewLine_closed (s : State) :
    (ensureNewLine s)._closed = s._closed := by
  obtain ⟨t, ht⟩ := ensureNewLine_exists_addOutput s
  rw [ht, addOutput_closed]

theorem ensureNewLine_stop (s : State) :
    (ensureNewLine s)._stopNewline = s._stopNewline := by
  obtain ⟨t, ht⟩ := ensureNewLine_exists_addOutput s
  rw [ht, addOutput_stop]

theorem ensureNewLine_buffer (s : State) :
    (ensureNewLine s)._inlineBuffer = s._inlineBuffer := by
  obtain ⟨t, ht⟩ := ensureNewLine_exists_addOutput s
  rw [ht, addOutput_buffer]

/-- Invariant used by the table-cell suppression claim: converting an
inline leaf never changes the suppression flag nor the pending-close
marker while suppression is on. -/
theorem convertBlock_inline_stop_invariant (c : LNode) (hc : isInlineLeaf c = true)
    (s : State) (hs : s._stopNewline = true) :
    (convertBlock c s)._stopNewline = true
    ∧ (convertBlock c s)._closed = s._closed := by
  cases c with
  | textNode content fmts => exact ⟨hs, rfl⟩
  | lineBreakNode =>
      simp only [convertBlock]
      rw [ensureNewLine_stop, ensureNewLine_closed]
      exact ⟨hs, rfl⟩
  | tabNode =>
      simp only [convertBlock]
      obtain ⟨t, ht⟩ := write_exists_addOutput_of_stop "    " hs
      rw [ht, addOutput_stop, addOutput_closed]
      exact ⟨hs, rfl⟩
  | paragraphNode cs => cases hc
  | headingNode tag cs => cases hc

theorem convertChildren_stop_invariant : ∀ (cs : List LNode) (s : State),
    s._stopNewline = true → (∀ c ∈ cs, isInlineLeaf c = true) →
    (convertChildren cs s)._stopNewline = true
    ∧ (convertChildren cs s)._closed = s._closed := by
  intro cs
  induction cs with
  | nil => exact fun s hs _ => ⟨hs, rfl⟩
  | cons c rest ih =>
      intro s hs hc
      have h1 := convertBlock_inline_stop_invariant c (hc c (by simp)) s hs
      have h2 := ih (convertBlock c s) h1.1 (fun x hx => hc x (by simp [hx]))
      exact ⟨h2.1, h2.2.trans h1.2⟩

theorem flushInline_stop_closed {s : State} (hs : s._stopNewline = true) :
    (flushInline s)._closed = s._closed := by
  unfold flushInline
  obtain ⟨t, ht⟩ := write_exists_addOutput_of_stop (flushInlineResult s._inlineBuffer) hs
  rw [ht]
  rfl

/-! Claim C6. -/

/-- C6, confirmed: while blank-line suppression is on, converting a
paragraph (whose children are inline leaves, as paragraph content is)
takes the suppressed branch — dispatch the inline content and flush, with
no `closeBlock` — leaving the pending-close marker exactly as it was; and
`flushClose` is a complete no-op while suppression holds, even with a close
pending. -/
theorem c6_suppression :
    (∀ (s : State) (cs : List LNode), s._stopNewline = true →
        (∀ c ∈ cs, isInlineLeaf c = true) →
        convertBlock (.paragraphNode cs) s = flushInline (convertChildren cs s)
        ∧ (convertBlock (.paragraphNode cs) s)._closed = s._closed)
    ∧ (∀ (s : State) (size : Nat), s._stopNewline = true → flushClose s size = s) := by
  constructor
  · intro s cs hs hc
    have heq : convertBlock (.paragraphNode cs) s = flushInline (convertChildren cs s) := by
      simp [convertBlock, hs]
    refine ⟨heq, ?_⟩
    rw [heq]
    have h1 := convertChildren_stop_invariant cs s hs hc
    rw [flushInline_stop_closed h1.1, h1.2]
  · intro s size hs
    exact flushClose_stop size hs

/-- Witness for `c6_suppression`: a suppressed state with a pending close
converting a one-text-child paragraph keeps the marker, and `flushClose`
leaves the state alone. -/
theorem c6_suppression_witness :
    (convertBlock (.paragraphNode [.textNode "a" noFormats]) stateSuppressedPending)._closed
      = stateSuppressedPending._closed
    ∧ flushClose stateSuppressedPending 3 = stateSuppressedPending :=
  ⟨(c6_suppression.1 stateSuppressedPending [.textNode "a" noFormats] rfl
      (by intro c hc; simp at hc; rw [hc]; rfl)).2,
    c6_suppression.2 stateSuppressedPending 3 rfl⟩

/-! Claim C7. -/

/-- C7, counterexample: in the current (`flushInline`) variant the
`LineBreakNode` conversion only calls `ensureNewLine` and does not flush the
inline buffer — a buffered run is still in the buffer afterwards,
contradicting the claim that the buffer is empty after the conversion. -/
theorem c7_counterexample :
    convertBlock .lineBreakNode stateWithBufferedRun = ensureNewLine stateWithBufferedRun
    ∧ (convertBlock .lineBreakNode stateWithBufferedRun)._inlineBuffer = [⟨"a", []⟩]
    ∧ ([⟨"a", []⟩] : List InlineText) ≠ [] :=
  ⟨rfl, rfl, by decide⟩

/-- C7, amended: in the historical (`getInlineText`) variant the line-break
conversion first flushes the inline buffer and then ensures a newline — the
buffered runs are reconciled and written before the newline, the buffer is
empty afterwards, and no pending close is introduced; in the current
(`flushInline`) variant the conversion is `ensureNewLine` alone and the
buffer is left untouched. -/
theorem c7_amended :
    (∀ s : State,
        lineBreakConversionV1 s = ensureNewLine (flushInlineText s)
        ∧ (lineBreakConversionV1 s)._inlineBuffer = []
        ∧ (s._closed = none → (lineBreakConversionV1 s)._closed = none))
    ∧ (∀ s : State,
        convertBlock .lineBreakNode s = ensureNewLine s
        ∧ (convertBlock .lineBreakNode s)._inlineBuffer = s._inlineBuffer) := by
  constructor
  · intro s
    refine ⟨rfl, ?_, ?_⟩
    · show (ensureNewLine (flushInlineText s))._inlineBuffer = []
      rw [ensureNewLine_buffer]
      rfl
    · intro hclosed
      show (ensureNewLine (flushInlineText s))._closed = none
      rw [ensureNewLine_closed]
      show ({ write s (getInlineText s._inlineBuffer) with
        _inlineBuffer := ([] : List InlineText) })._closed = none
      obtain ⟨t, ht⟩ := write_exists_addOutput_of_closed_none
        (getInlineText s._inlineBuffer) hclosed
      rw [ht]
      exact hclosed
  · intro s
    exact ⟨rfl, ensureNewLine_buffer s⟩

/-- Witness for `c7_amended`: the historical conversion on a state holding
one buffered run leaves no pending close. -/
theorem c7_amended_witness :
    (lineBreakConversionV1 stateWithBufferedRun)._closed = none :=
  (c7_amended.1 stateWithBufferedRun).2.2 rfl

/-! Result extension (claim C10): every operation appends to `_result`. -/

theorem resultExtends_refl (s : State) : ResultExtends s s :=
  ⟨"", by simp⟩

theorem resultExtends_trans {s t u : State}
    (h1 : ResultExtends s t) (h2 : ResultExtends t u) : ResultExtends s u := by
  obtain ⟨a, ha⟩ := h1
  obtain ⟨b, hb⟩ := h2
  exact ⟨a ++ b, by rw [hb, ha, String.append_assoc]⟩

theorem resultExtends_addOutput (s : State) (t : String) :
    ResultExtends s (addOutput s t) := ⟨t, rfl⟩

theorem resultExtends_of_result_eq {s a b : State}
    (h : ResultExtends s a) (heq : b._result = a._result) : ResultExtends s b := by
  obtain ⟨t, ht⟩ := h
  exact ⟨t, heq.trans ht⟩

theorem ext_ensureNewLine (s : State) : ResultExtends s (ensureNewLine s) := by
  obtain ⟨t, ht⟩ := ensureNewLine_exists_addOutput s
  rw [ht]
  exact resultExtends_addOutput s t

theorem ext_appendDelimLines (d : String) : ∀ (n : Nat) (s : State),
    ResultExtends s (appendDelimLines s d n)
  | 0, s => resultExtends_refl s
  | n + 1, s =>
      resultExtends_trans (resultExtends_addOutput s (d ++ "\n"))
        (ext_appendDelimLines d n _)

theorem ext_flushClose (s : State) (size : Nat) :
    ResultExtends s (flushClose s size) := by
  unfold flushClose
  split
  · exact resultExtends_refl s
  · have h2 : ∀ s1 : State, ResultExtends s1
        (if 1 < size then appendDelimLines s1 (trimEnd s1._delim) (size - 1) else s1) := by
      intro s1
      split
      · exact ext_appendDelimLines _ _ _
      · exact resultExtends_refl _
    have h1 : ResultExtends s (if isInBlank s then s else addOutput s "\n") := by
      split
      · exact resultExtends_refl s
      · exact resultExtends_addOutput s "\n"
    exact resultExtends_of_result_eq
      (resultExtends_trans h1 (h2 (if isInBlank s then s else addOutput s "\n"))) rfl

theorem ext_write (s : State) (c : String) : ResultExtends s (write s c) := by
  have h1 : ResultExtends s (flushClose s 2) := ext_flushClose s 2
  have h2 : ∀ s1 : State, ResultExtends s1
      (if c ≠ "" then
          addOutput (if s1._delim ≠ "" && isInBlank s1 then addOutput s1 s1._delim else s1) c
        else (if s1._delim ≠ "" && isInBlank s1 then addOutput s1 s1._delim else s1)) := by
    intro s1
    have ha : ResultExtends s1
        (if s1._delim ≠ "" && isInBlank s1 then addOutput s1 s1._delim else s1) := by
      split
      · exact resultExtends_addOutput s1 s1._delim
      · exact resultExtends_refl s1
    split
    · exact resultExtends_trans ha (resultExtends_addOutput _ c)
    · exact ha
  exact resultExtends_trans h1 (h2 (flushClose s 2))

theorem ext_textLines : ∀ (ls : List String) (s : State),
    ResultExtends s (textLines s ls)
  | [], s => resultExtends_refl s
  | [l], s => resultExtends_trans (ext_write s "") (resultExtends_addOutput _ l)
  | l :: l2 :: ls, s =>
      resultExtends_trans
        (resultExtends_trans
          (resultExtends_trans (ext_write s "") (resultExtends_addOutput _ l))
          (resultExtends_addOutput _ "\n"))
        (ext_textLines (l2 :: ls) _)

theorem ext_textOp (s : State) (t : String) : ResultExtends s (textOp s t) :=
  ext_textLines (t.splitOn "\n") s

theorem ext_writeInline (s : State) (it : InlineText) :
    ResultExtends s (writeInline s it) :=
  ⟨"", by simp [writeInline]⟩

theorem ext_flushInline (s : State) : ResultExtends s (flushInline s) :=
  resultExtends_of_result_eq (ext_write s (flushInlineResult s._inlineBuffer)) rfl

theorem ext_flushInlineText (s : State) : ResultExtends s (flushInlineText s) :=
  resultExtends_of_result_eq (ext_write s (getInlineText s._inlineBuffer)) rfl

theorem ext_wrapBlock (d : String) (fd : Option String) (nd : LNode)
    (fn : State → State) (hfn : ∀ s, ResultExtends s (fn s)) (s : State) :
    ResultExtends s (wrapBlock d fd nd fn s) := by
  have key : ∀ x : String, ResultExtends s
      (closeBlock
        { fn { write s x with _delim := (write s x)._delim ++ d } with
          _delim := s._delim } nd) := by
    intro x
    have h2 : ResultExtends s { write s x with _delim := (write s x)._delim ++ d } :=
      resultExtends_of_result_eq (ext_write s x) rfl
    have h3 := hfn { write s x with _delim := (write s x)._delim ++ d }
    exact resultExtends_of_result_eq (resultExtends_trans h2 h3) rfl
  exact key _

mutual

theorem ext_convertBlock : ∀ (n : LNode) (s : State),
    ResultExtends s (convertBlock n s)
  | .textNode c f, s => ext_writeInline s _
  | .lineBreakNode, s => ext_ensureNewLine s
  | .tabNode, s => ext_write s "    "
  | .paragraphNode cs, s => by
      show ResultExtends s
        (if s._stopNewline then flushInline (convertChildren cs s)
          else closeBlock
            (if cs.isEmpty then write s "<br>" else flushInline (convertChildren cs s))
            (.paragraphNode cs))
      split
      · exact resultExtends_trans (ext_convertChildren cs s) (ext_flushInline _)
      · refine resultExtends_of_result_eq ?_ rfl
        split
        · exact ext_write s "<br>"
        · exact resultExtends_trans (ext_convertChildren cs s) (ext_flushInline _)
  | .headingNode tag cs, s => by
      show ResultExtends s
        (closeBlock
          (flushInline (convertChildren cs (write s (headingHashes tag ++ " "))))
          (.headingNode tag cs))
      refine resultExtends_of_result_eq ?_ rfl
      exact resultExtends_trans (ext_write s _)
        (resultExtends_trans (ext_convertChildren cs _) (ext_flushInline _))

theorem ext_convertChildren : ∀ (cs : List LNode) (s : State),
    ResultExtends s (convertChildren cs s)
  | [], s => resultExtends_refl s
  | c :: cs, s =>
      resultExtends_trans (ext_convertBlock c s) (ext_convertChildren cs _)

end

/-! Claim C10. -/

/-- C10, confirmed: the result buffer is append-only — each state operation
either leaves `_result` unchanged or extends it by a suffix, so the result
before an operation is always a prefix of the result after it; this covers
`write`, `text`, `ensureNewLine`, `flushClose`, `flushInline` (and the
historical `flushInlineText`), `writeInline`, `convertBlock` over any node
tree, and `wrapBlock` whenever its body preserves the property. -/
theorem c10_append_only :
    (∀ (s : State) (c : String), ResultExtends s (write s c))
    ∧ (∀ (s : State) (t : String), ResultExtends s (textOp s t))
    ∧ (∀ s : State, ResultExtends s (ensureNewLine s))
    ∧ (∀ (s : State) (size : Nat), ResultExtends s (flushClose s size))
    ∧ (∀ s : State, ResultExtends s (flushInline s))
    ∧ (∀ s : State, ResultExtends s (flushInlineText s))
    ∧ (∀ (s : State) (it : InlineText), ResultExtends s (writeInline s it))
    ∧ (∀ (n : LNode) (s : State), ResultExtends s (convertBlock n s))
    ∧ (∀ (d : String) (fd : Option String) (nd : LNode) (fn : State → State),
        (∀ s, ResultExtends s (fn s)) →
        ∀ s, ResultExtends s (wrapBlock d fd nd fn s)) :=
  ⟨ext_write, ext_textOp, ext_ensureNewLine, ext_flushClose, ext_flushInline,
    ext_flushInlineText, ext_writeInline, ext_convertBlock, ext_wrapBlock⟩

/-- Witness for `c10_append_only`: `wrapBlock` with the identity body on the
initial state extends the result. -/
theorem c10_append_only_witness :
    ResultExtends initState
      (wrapBlock "> " none .lineBreakNode (fun s => s) initState) :=
  c10_append_only.2.2.2.2.2.2.2.2 "> " none .lineBreakNode (fun s => s)
    (fun s => ⟨"", by simp⟩) initState

/-! Claim C9. -/

/-- C9, confirmed: converting a heading with tag `hN` writes `N` hash marks
and one space before dispatching its inline content and marks a pending
close; concretely a level-2 heading over plain text Title yields
`## Title`, and an empty paragraph (suppression off, as in the initial
state) writes `<br>` and also marks a pending close. -/
theorem c9_heading_paragraph :
    (∀ (tag : String) (n : Nat) (cs : List LNode) (s : State),
        parseNatDigits (tag.data.drop 1) = some n →
        convertBlock (.headingNode tag cs) s
          = closeBlock
              (flushInline (convertChildren cs
                (write s (String.mk (List.replicate n '#') ++ " "))))
              (.headingNode tag cs))
    ∧ (convertBlock (.headingNode "h2" [.textNode "Title" noFormats]) initState)._result
        = "## Title"
    ∧ (convertBlock (.headingNode "h2" [.textNode "Title" noFormats]) initState)._closed
        = some (.headingNode "h2" [.textNode "Title" noFormats])
    ∧ (convertBlock (.paragraphNode []) initState)._result = "<br>"
    ∧ (convertBlock (.paragraphNode []) initState)._closed = some (.paragraphNode [])
    ∧ initState._stopNewline = false := by
  refine ⟨?_, by decide, rfl, by decide, rfl, rfl⟩
  intro tag n cs s h
  show closeBlock
      (flushInline (convertChildren cs (write s (headingHashes tag ++ " "))))
      (.headingNode tag cs) = _
  rw [headingHashes, h]
  rfl

/-- Witness for `c9_heading_paragraph`: the hash-prefix equation at tag h2. -/
theorem c9_heading_paragraph_witness :
    convertBlock (.headingNode "h2" []) initState
      = closeBlock
          (flushInline (convertChildren []
            (write initState (String.mk (List.replicate 2 '#') ++ " "))))
          (.headingNode "h2" []) :=
  c9_heading_paragraph.1 "h2" 2 [] initState (by decide)

end MDC
